import Mathlib

/-!
Shallow embedding of the 3x3 matrix utilities of `src/src/USER-SMD/smd_math.h`
(Smooth Mach Dynamics package for LAMMPS).

Matrices of `double` are modelled as matrices over `ℚ` (exact arithmetic; every
comparison and clamp in the source is on values that are exact in this model).
The two external numerical capabilities the header consumes — Eigen's
`JacobiSVD` (singular value decomposition) and `SelfAdjointEigenSolver`
(symmetric eigen-decomposition) — are modelled as oracle parameters: the
embedded functions take the oracle as an argument, and theorems assume the
oracle's outputs are valid decompositions (orthogonal factors, non-negative
singular values), exactly the contract stated for those collaborators.

Eigen's `Matrix3d::inverse()` computes the cofactor (adjugate-over-determinant)
inverse; it is embedded as `inv3` below.
-/

namespace SMD_Math

abbrev Mat3 := Matrix (Fin 3) (Fin 3) ℚ

abbrev Vec3 := Fin 3 → ℚ

/-- Embedding of `LimitDoubleMagnitude(double &x, const double limit)`:
if `|x|` exceeds `limit`, set `x` to `limit * copysign(1, x)`; the updated
value of `x` is returned.  `copysign(1, x)` is `-1` for negative `x` and `1`
otherwise (ℚ has no negative zero). -/
def LimitDoubleMagnitude (x limit : ℚ) : ℚ :=
  if |x| > limit then limit * (if x < 0 then -1 else 1) else x

/-- Embedding of `Deviator(const Matrix3d M)`: `M - (trace(M)/3) * I`. -/
def Deviator (M : Mat3) : Mat3 :=
  M - (M.trace / 3) • (1 : Mat3)

/-- Result of the external SVD capability (`JacobiSVD<Matrix3d>` with
`ComputeFullU | ComputeFullV`): factor `U`, the singular-value vector `sv`,
and factor `V`. -/
structure SVDResult where
  U : Mat3
  sv : Vec3
  V : Mat3

/-- The SVD oracle's output for `M` is a valid decomposition: `U` and `V`
orthogonal, singular values non-negative, and `M = U * diag(sv) * Vᵀ`. -/
def IsOrthogonal (A : Mat3) : Prop :=
  A.transpose * A = 1 ∧ A * A.transpose = 1

instance (A : Mat3) : Decidable (IsOrthogonal A) := by
  unfold IsOrthogonal
  infer_instance

/-- Index of the first minimal coefficient of a 3-vector, as computed by
Eigen's `minCoeff(&imin)` visitor: it scans indices in order and keeps the
current index only on a strict decrease, so ties resolve to the first index
achieving the minimum. -/
def minIdx3 (v : Vec3) : Fin 3 :=
  if v 1 < v 0 then
    (if v 2 < v 1 then 2 else 1)
  else
    (if v 2 < v 0 then 2 else 0)

/-- The singular-value vector with the entry at the first argmin negated
(`S(imin, imin) *= -1.0` in the source). -/
def flipMin (v : Vec3) : Vec3 :=
  Function.update v (minIdx3 v) (-(v (minIdx3 v)))

/-- Scalar clamp used by the diagonal-entry loops of the source:
`if (x < lo) x = lo; else if (x > hi) x = hi;`. -/
def clampQ (lo hi x : ℚ) : ℚ :=
  if x < lo then lo else if x > hi then hi else x

/-- The source's clamping loops touch only the diagonal entries of a matrix,
leaving off-diagonal entries as they are. -/
def clampDiag (lo hi : ℚ) (S : Mat3) : Mat3 :=
  Matrix.of fun i j => if i = j then clampQ lo hi (S i j) else S i j

/-- The rotation `R = U * Vᵀ` formed from the first SVD of `M`. -/
def polR0 (svd : Mat3 → SVDResult) (M : Mat3) : Mat3 :=
  (svd M).U * (svd M).V.transpose

/-- The flipped deformation gradient `F = U * S_flipped * Vᵀ` recomputed in
the improper-rotation branch of `PolDec`. -/
def polF (svd : Mat3 → SVDResult) (M : Mat3) : Mat3 :=
  (svd M).U * Matrix.diagonal (flipMin (svd M).sv) * (svd M).V.transpose

/-- Outputs of `PolDec(Matrix3d &M, Matrix3d &R, Matrix3d &T)`: the final
values of the three by-reference matrices and the returned boolean. -/
structure PolDecResult where
  M : Mat3
  R : Mat3
  T : Mat3
  ret : Bool

/-- Embedding of `PolDec`.  First SVD `M = U S Vᵀ`, `R = U * Vᵀ`; if
`det R < 0`, flip the smallest singular value, recompute `F`, redo the SVD on
`F` and take `U`, `V`, `R = U * Vᵀ` from it (the diagonal matrix `S` keeps the
flipped entry).  Then clamp the diagonal of `S` into `[0.3, 2.0]`, set
`T = V * S * Vᵀ`, overwrite `M` with `R * T`, and return
`|det R - 1| < 1e-8`. -/
def PolDec (svd : Mat3 → SVDResult) (M : Mat3) : PolDecResult :=
  if (polR0 svd M).det < 0 then
    let d1 := svd (polF svd M)
    let R := d1.U * d1.V.transpose
    let T := d1.V * clampDiag 0.3 2.0 (Matrix.diagonal (flipMin (svd M).sv)) * d1.V.transpose
    ⟨R * T, R, T, decide (|R.det - 1| < 1e-8)⟩
  else
    let R := polR0 svd M
    let T := (svd M).V * clampDiag 0.3 2.0 (Matrix.diagonal (svd M).sv) * (svd M).V.transpose
    ⟨R * T, R, T, decide (|R.det - 1| < 1e-8)⟩

/-- Embedding of `pseudo_inverse_SVD(Matrix3d M)`: SVD `M = U S Vᵀ`; each
singular value above `1e-6` is inverted, the others are replaced by `1.0`;
the result is `V * diag(inverted) * Uᵀ`. -/
def pseudo_inverse_SVD (svd : Mat3 → SVDResult) (M : Mat3) : Mat3 :=
  (svd M).V *
    Matrix.diagonal (fun i => if (svd M).sv i > 1e-6 then 1 / (svd M).sv i else 1) *
    (svd M).U.transpose

/-- Result of the external symmetric eigen-decomposition capability
(`SelfAdjointEigenSolver<Matrix3d>`): the eigenvalue vector and the matrix
whose columns are the eigenvectors. -/
structure EigResult where
  ev : Vec3
  V : Mat3

/-- The eigen oracle's output for `S` is a valid decomposition: `V`
orthogonal (an orthonormal eigenbasis) and `S = V * diag(ev) * Vᵀ`. -/
def EigValid (S : Mat3) (e : EigResult) : Prop :=
  IsOrthogonal e.V ∧ S = e.V * Matrix.diagonal e.ev * e.V.transpose

instance (S : Mat3) (e : EigResult) : Decidable (EigValid S e) := by
  unfold EigValid
  infer_instance

/-- Eigen's `maxCoeff()` over a 3-vector. -/
def maxCoeff3 (v : Vec3) : ℚ :=
  max (max (v 0) (v 1)) (v 2)

/-- Eigen's `minCoeff()` over a 3-vector. -/
def minCoeff3 (v : Vec3) : ℚ :=
  min (min (v 0) (v 1)) (v 2)

/-- Embedding of Eigen's `Matrix3d::inverse()` (cofactor formula):
`A⁻¹ = (det A)⁻¹ • adjugate A`. -/
def inv3 (A : Mat3) : Mat3 :=
  (A.det)⁻¹ • A.adjugate

/-- Embedding of `LimitEigenvalues(Matrix3d S, double limitEigenvalue)`:
if either `|max eigenvalue|` or `|min eigenvalue|` exceeds the limit, divide
the diagonalized matrix `V⁻¹ S V` by `scale = (larger magnitude)/limit` and
undiagonalize; otherwise return `S` unchanged. -/
def LimitEigenvalues (es : Mat3 → EigResult) (S : Mat3) (limitEigenvalue : ℚ) : Mat3 :=
  if |maxCoeff3 (es S).ev| > limitEigenvalue ∨ |minCoeff3 (es S).ev| > limitEigenvalue then
    if |maxCoeff3 (es S).ev| > |minCoeff3 (es S).ev| then
      (es S).V * ((|maxCoeff3 (es S).ev| / limitEigenvalue)⁻¹ •
        (inv3 (es S).V * S * (es S).V)) * inv3 (es S).V
    else
      (es S).V * ((|minCoeff3 (es S).ev| / limitEigenvalue)⁻¹ •
        (inv3 (es S).V * S * (es S).V)) * inv3 (es S).V
  else
    S

/-- Outputs of `LimitMinMaxEigenvalues(Matrix3d &S, double min, double max)`:
the final value of the by-reference matrix `S` and the returned boolean. -/
structure LimitMMResult where
  S : Mat3
  ret : Bool

/-- Embedding of `LimitMinMaxEigenvalues`: if the maximum eigenvalue exceeds
`hi` or the minimum eigenvalue is below `lo`, clamp each diagonal entry of
`diag(ev)` into `[lo, hi]`, rebuild `S = V * diag_clamped * V⁻¹` and return
`true`; otherwise leave `S` and return `false`.  (The source names the bounds
`min` and `max`; they are renamed `lo`, `hi` here to avoid shadowing.) -/
def LimitMinMaxEigenvalues (es : Mat3 → EigResult) (S : Mat3) (lo hi : ℚ) : LimitMMResult :=
  if maxCoeff3 (es S).ev > hi ∨ minCoeff3 (es S).ev < lo then
    ⟨(es S).V * clampDiag lo hi (Matrix.diagonal (es S).ev) * inv3 (es S).V, true⟩
  else
    ⟨S, false⟩

/-- The uniform eigenvalue scaling factor applied by `LimitEigenvalues` when
limiting applies: `limit` over the larger of the two extreme eigenvalue
magnitudes. -/
def scaleFactor (es : Mat3 → EigResult) (S : Mat3) (limit : ℚ) : ℚ :=
  limit / max |maxCoeff3 (es S).ev| |minCoeff3 (es S).ev|

/-- A trivial SVD oracle (valid for the identity matrix): `U = 1`,
`sv = (1,1,1)`, `V = 1`. -/
def svdTrivial : Mat3 → SVDResult := fun _ => ⟨1, fun _ => 1, 1⟩

/-- An SVD oracle whose `U * Vᵀ` is the reflection `diag(1, 1, -1)`, with
singular values `(3, 2, 1)`; it drives `PolDec` into the improper-rotation
branch. -/
def svdFlip : Mat3 → SVDResult := fun _ => ⟨Matrix.diagonal ![1, 1, -1], ![3, 2, 1], 1⟩

/-- An eigen oracle that reads the diagonal of its argument and reports the
identity eigenbasis (valid for diagonal matrices). -/
def esDiag : Mat3 → EigResult := fun N => ⟨fun i => N i i, 1⟩

/-! ### Helper lemmas -/

lemma isOrthogonal_mul_transpose (U V : Mat3) (hU : IsOrthogonal U) (hV : IsOrthogonal V) :
    IsOrthogonal (U * V.transpose) := by
  constructor
  · calc (U * V.transpose).transpose * (U * V.transpose)
        = (V * U.transpose) * (U * V.transpose) := by
          rw [Matrix.transpose_mul, Matrix.transpose_transpose]
      _ = V * ((U.transpose * U) * V.transpose) := by
          rw [mul_assoc, ← mul_assoc U.transpose U]
      _ = V * V.transpose := by rw [hU.1, one_mul]
      _ = 1 := hV.2
  · calc (U * V.transpose) * (U * V.transpose).transpose
        = (U * V.transpose) * (V * U.transpose) := by
          rw [Matrix.transpose_mul, Matrix.transpose_transpose]
      _ = U * ((V.transpose * V) * U.transpose) := by
          rw [mul_assoc, ← mul_assoc V.transpose V]
      _ = U * U.transpose := by rw [hV.1, one_mul]
      _ = 1 := hU.2

lemma det_ne_zero_of_orthogonal (V : Mat3) (hV : IsOrthogonal V) : V.det ≠ 0 := by
  intro h0
  have h1 : (V.transpose * V).det = (1 : Mat3).det := by rw [hV.1]
  rw [Matrix.det_mul, Matrix.det_transpose, Matrix.det_one, h0, mul_zero] at h1
  exact zero_ne_one h1

lemma inv3_of_orthogonal (V : Mat3) (hV : IsOrthogonal V) : inv3 V = V.transpose := by
  have hdet : V.det ≠ 0 := det_ne_zero_of_orthogonal V hV
  have hinv : V * inv3 V = 1 := by
    rw [inv3, Matrix.mul_smul, Matrix.mul_adjugate, smul_smul, inv_mul_cancel₀ hdet, one_smul]
  calc inv3 V = 1 * inv3 V := (one_mul _).symm
    _ = (V.transpose * V) * inv3 V := by rw [hV.1]
    _ = V.transpose * (V * inv3 V) := by rw [mul_assoc]
    _ = V.transpose := by rw [hinv, mul_one]

lemma clampQ_mem (lo hi x : ℚ) (h : lo ≤ hi) : lo ≤ clampQ lo hi x ∧ clampQ lo hi x ≤ hi := by
  unfold clampQ
  split_ifs <;> constructor <;> linarith

lemma clampQ_of_mem (lo hi x : ℚ) (h1 : lo ≤ x) (h2 : x ≤ hi) : clampQ lo hi x = x := by
  unfold clampQ
  split_ifs <;> linarith

lemma clampDiag_diagonal (lo hi : ℚ) (w : Vec3) :
    clampDiag lo hi (Matrix.diagonal w) = Matrix.diagonal (fun i => clampQ lo hi (w i)) := by
  ext i j
  by_cases h : i = j
  · subst h
    simp [clampDiag, Matrix.diagonal_apply]
  · simp [clampDiag, Matrix.diagonal_apply, h]

lemma symm_conj_diag (V : Mat3) (d : Vec3) :
    (V * Matrix.diagonal d * V.transpose).transpose = V * Matrix.diagonal d * V.transpose := by
  rw [Matrix.transpose_mul, Matrix.transpose_mul, Matrix.transpose_transpose,
    Matrix.diagonal_transpose, mul_assoc]

/-- Every eigenvalue of `V * diag d * Vᵀ` (with `V` orthogonal) is one of the
entries of `d`, hence lies between any bounds enclosing all entries of `d`. -/
lemma eigenvalue_conj_diag_bounds (V : Mat3) (d : Vec3) (lo hi : ℚ) (hV : IsOrthogonal V)
    (hd : ∀ i, lo ≤ d i ∧ d i ≤ hi) (μ : ℚ) (v : Vec3) (hv : v ≠ 0)
    (h : (V * Matrix.diagonal d * V.transpose).mulVec v = μ • v) : lo ≤ μ ∧ μ ≤ hi := by
  have hw : (Matrix.diagonal d).mulVec (V.transpose.mulVec v) =
      μ • V.transpose.mulVec v := by
    have h1 : V.transpose.mulVec ((V * Matrix.diagonal d * V.transpose).mulVec v) =
        V.transpose.mulVec (μ • v) := by rw [h]
    rw [Matrix.mulVec_smul, Matrix.mulVec_mulVec] at h1
    have h2 : V.transpose * (V * Matrix.diagonal d * V.transpose) =
        Matrix.diagonal d * V.transpose := by
      rw [← mul_assoc, ← mul_assoc, hV.1, one_mul]
    rw [h2, ← Matrix.mulVec_mulVec] at h1
    exact h1
  have hwne : V.transpose.mulVec v ≠ 0 := by
    intro h0
    apply hv
    have h3 : V.mulVec (V.transpose.mulVec v) = V.mulVec 0 := by rw [h0]
    rw [Matrix.mulVec_mulVec, hV.2, Matrix.one_mulVec, Matrix.mulVec_zero] at h3
    exact h3
  obtain ⟨i, hi0⟩ : ∃ i, V.transpose.mulVec v i ≠ 0 := by
    by_contra hall
    push_neg at hall
    exact hwne (funext hall)
  have hent : d i * V.transpose.mulVec v i = μ * V.transpose.mulVec v i := by
    have h4 := congrFun hw i
    rw [Matrix.mulVec_diagonal] at h4
    simpa [smul_eq_mul] using h4
  have hμ : d i = μ := mul_right_cancel₀ hi0 hent
  exact hμ ▸ hd i

lemma eigenvalue_bounds_of_eq (T V : Mat3) (d : Vec3) (lo hi : ℚ) (hV : IsOrthogonal V)
    (hd : ∀ i, lo ≤ d i ∧ d i ≤ hi) (hT : T = V * Matrix.diagonal d * V.transpose)
    (μ : ℚ) (v : Vec3) (hv : v ≠ 0) (h : T.mulVec v = μ • v) : lo ≤ μ ∧ μ ≤ hi := by
  rw [hT] at h
  exact eigenvalue_conj_diag_bounds V d lo hi hV hd μ v hv h

lemma LimitMinMax_eq_true (es : Mat3 → EigResult) (T : Mat3) (lo hi : ℚ)
    (h : maxCoeff3 (es T).ev > hi ∨ minCoeff3 (es T).ev < lo) :
    LimitMinMaxEigenvalues es T lo hi =
      ⟨(es T).V * clampDiag lo hi (Matrix.diagonal (es T).ev) * inv3 (es T).V, true⟩ := by
  unfold LimitMinMaxEigenvalues
  rw [if_pos h]

lemma LimitMinMax_eq_false (es : Mat3 → EigResult) (T : Mat3) (lo hi : ℚ)
    (h : ¬(maxCoeff3 (es T).ev > hi ∨ minCoeff3 (es T).ev < lo)) :
    LimitMinMaxEigenvalues es T lo hi = ⟨T, false⟩ := by
  unfold LimitMinMaxEigenvalues
  rw [if_neg h]

/-- Column `i` of `V` is a nonzero vector when `V` is orthogonal. -/
lemma orthogonal_column_ne_zero (V : Mat3) (hV : IsOrthogonal V) (i : Fin 3) :
    (fun k => V k i) ≠ (0 : Vec3) := by
  intro h0
  have h1 : ((V.transpose * V) i i : ℚ) = 1 := by rw [hV.1]; exact Matrix.one_apply_eq i
  rw [Matrix.mul_apply] at h1
  have hz : ∀ k, V k i = 0 := fun k => congrFun h0 k
  simp [Matrix.transpose_apply, hz] at h1

/-- Column `i` of `V` is an eigenvector of `V * diag d * Vᵀ` with eigenvalue
`d i`. -/
lemma conj_diag_column_eigen (V : Mat3) (d : Vec3) (S : Mat3) (hV : V.transpose * V = 1)
    (hS : S = V * Matrix.diagonal d * V.transpose) (i : Fin 3) :
    S.mulVec (fun k => V k i) = d i • fun k => V k i := by
  have hSV : S * V = V * Matrix.diagonal d := by
    rw [hS, mul_assoc (V * Matrix.diagonal d) V.transpose V, hV, mul_one]
  funext k
  have h1 : S.mulVec (fun j => V j i) k = (S * V) k i := by
    simp [Matrix.mulVec, Matrix.dotProduct, Matrix.mul_apply]
  rw [h1, hSV, Matrix.mul_diagonal]
  simp [smul_eq_mul, mul_comm]

lemma minIdx3_min (v : Vec3) (j : Fin 3) : v (minIdx3 v) ≤ v j := by
  unfold minIdx3
  split_ifs with h1 h2 h2 <;> fin_cases j <;> simp <;> linarith

lemma minIdx3_first (v : Vec3) (j : Fin 3) (hj : j < minIdx3 v) : v (minIdx3 v) < v j := by
  unfold minIdx3 at hj ⊢
  split_ifs at hj ⊢ with h1 h2 h2 <;> fin_cases j <;>
    simp [Fin.lt_def] at hj ⊢ <;> linarith

/-! ### Claim theorems -/

/-- Claim C2: `PolDec` returns `true` if and only if, after the decomposition
and the improper-rotation correction, `|det(R) - 1| < 1e-8`; the caller
receives the computed `R` and `T` in both cases (and `M` is set to `R * T`
regardless of the boolean). -/
theorem PolDec_ret_iff_det (svd : Mat3 → SVDResult) (M : Mat3) :
    ((PolDec svd M).ret = true ↔ |(PolDec svd M).R.det - 1| < 1e-8) ∧
    (PolDec svd M).M = (PolDec svd M).R * (PolDec svd M).T := by
  constructor
  · unfold PolDec
    split <;> simp [decide_eq_true_eq]
  · unfold PolDec
    split <;> rfl

/-- Claim C4: `pseudo_inverse_SVD` is total and equals
`V * diag(s') * Uᵀ` where `s'_i = 1/s_i` if `s_i > 1e-6` and `s'_i = 1.0`
otherwise; the substituted diagonal entries are never zero. -/
theorem pseudo_inverse_SVD_spec (svd : Mat3 → SVDResult) (M : Mat3) :
    pseudo_inverse_SVD svd M =
      (svd M).V *
        Matrix.diagonal (fun i => if (svd M).sv i > 1e-6 then 1 / (svd M).sv i else 1) *
        (svd M).U.transpose ∧
    ∀ i, (if (svd M).sv i > 1e-6 then 1 / (svd M).sv i else 1) ≠ 0 := by
  refine ⟨rfl, fun i => ?_⟩
  split_ifs with h
  · have hpos : (0 : ℚ) < (svd M).sv i := lt_trans (by norm_num) h
    exact one_div_ne_zero (ne_of_gt hpos)
  · exact one_ne_zero

/-- Claim C7: `PolDec` overwrites its input matrix `M` in place with the
reconstructed product `R * T`. -/
theorem PolDec_overwrites_input (svd : Mat3 → SVDResult) (M : Mat3) :
    (PolDec svd M).M = (PolDec svd M).R * (PolDec svd M).T := by
  unfold PolDec
  split <;> rfl

/-- Claim C8 (amended): for `L ≥ 0`, `|LimitDoubleMagnitude x L| ≤ L`; if
`|x| ≤ L` already held, `x` is unchanged; and when additionally `L > 0`, the
result has the same sign as a nonzero original `x`.  (The sign clause of the
original claim fails at `L = 0`.) -/
theorem LimitDoubleMagnitude_clamps (x L : ℚ) (hL : 0 ≤ L) :
    |LimitDoubleMagnitude x L| ≤ L ∧
    (|x| ≤ L → LimitDoubleMagnitude x L = x) ∧
    (0 < L → x ≠ 0 →
      ((0 < x ↔ 0 < LimitDoubleMagnitude x L) ∧
       (x < 0 ↔ LimitDoubleMagnitude x L < 0))) := by
  unfold LimitDoubleMagnitude
  refine ⟨?_, ?_, ?_⟩
  · split_ifs with h hneg
    · rw [mul_neg_one, abs_neg, abs_of_nonneg hL]
    · rw [mul_one, abs_of_nonneg hL]
    · exact not_lt.mp h
  · intro hx
    rw [if_neg (not_lt.mpr hx)]
  · intro hLpos hx
    split_ifs with h hneg
    · constructor
      · constructor <;> intro h' <;> nlinarith
      · constructor <;> intro h' <;> nlinarith
    · have hxpos : 0 < x := lt_of_le_of_ne (not_lt.mp hneg) (Ne.symm hx)
      constructor
      · constructor <;> intro h' <;> nlinarith
      · constructor <;> intro h' <;> nlinarith
    · exact ⟨Iff.rfl, Iff.rfl⟩

/-- Witness for claim C8's amended theorem at `x = 5`, `L = 2`. -/
theorem LimitDoubleMagnitude_clamps_witness :
    (0 : ℚ) ≤ 2 ∧
    (|LimitDoubleMagnitude 5 2| ≤ 2 ∧
     (|(5 : ℚ)| ≤ 2 → LimitDoubleMagnitude 5 2 = 5) ∧
     (0 < (2 : ℚ) → (5 : ℚ) ≠ 0 →
       ((0 < (5 : ℚ) ↔ 0 < LimitDoubleMagnitude 5 2) ∧
        ((5 : ℚ) < 0 ↔ LimitDoubleMagnitude 5 2 < 0)))) :=
  ⟨by decide, LimitDoubleMagnitude_clamps 5 2 (by decide)⟩

/-- Counterexample for claim C8 as frozen: at `x = 1`, `L = 0` the hypotheses
`L ≥ 0` and `x ≠ 0` hold, yet the result `0` does not have the sign of the
original `x = 1`. -/
theorem LimitDoubleMagnitude_sign_counterexample :
    (0 : ℚ) ≤ 0 ∧ (1 : ℚ) ≠ 0 ∧
    ¬ ((0 < (1 : ℚ) ↔ 0 < LimitDoubleMagnitude 1 0) ∧
       ((1 : ℚ) < 0 ↔ LimitDoubleMagnitude 1 0 < 0)) := by
  norm_num [LimitDoubleMagnitude]

lemma clampT_symm_and_bounded (V : Mat3) (hV : IsOrthogonal V) (w : Vec3) :
    (V * clampDiag 0.3 2.0 (Matrix.diagonal w) * V.transpose).transpose =
      V * clampDiag 0.3 2.0 (Matrix.diagonal w) * V.transpose ∧
    ∀ (μ : ℚ) (v : Vec3), v ≠ 0 →
      (V * clampDiag 0.3 2.0 (Matrix.diagonal w) * V.transpose).mulVec v = μ • v →
      (0.3 : ℚ) ≤ μ ∧ μ ≤ 2.0 := by
  rw [clampDiag_diagonal]
  refine ⟨symm_conj_diag V _, fun μ v hv h => ?_⟩
  exact eigenvalue_conj_diag_bounds V _ 0.3 2.0 hV
    (fun i => clampQ_mem 0.3 2.0 (w i) (by norm_num)) μ v hv h

/-- Claim C1: assuming the SVD capability returns orthogonal `U`, `V` and
non-negative singular values, after `PolDec(M, R, T)` the rotation `R` is
orthogonal, `T` is symmetric, and every eigenvalue of `T` lies in
`[0.3, 2.0]`. -/
theorem PolDec_R_orthogonal_T_bounded (svd : Mat3 → SVDResult) (M : Mat3)
    (hsvd : ∀ N, IsOrthogonal (svd N).U ∧ IsOrthogonal (svd N).V ∧
      ∀ i, 0 ≤ (svd N).sv i) :
    IsOrthogonal (PolDec svd M).R ∧
    (PolDec svd M).T.transpose = (PolDec svd M).T ∧
    ∀ (μ : ℚ) (v : Vec3), v ≠ 0 → (PolDec svd M).T.mulVec v = μ • v →
      (0.3 : ℚ) ≤ μ ∧ μ ≤ 2.0 := by
  obtain ⟨hU0, hV0, -⟩ := hsvd M
  obtain ⟨hU1, hV1, -⟩ := hsvd (polF svd M)
  unfold PolDec
  split
  · have h := clampT_symm_and_bounded (svd (polF svd M)).V hV1 (flipMin (svd M).sv)
    exact ⟨isOrthogonal_mul_transpose _ _ hU1 hV1, h.1, h.2⟩
  · have h := clampT_symm_and_bounded (svd M).V hV0 (svd M).sv
    exact ⟨isOrthogonal_mul_transpose _ _ hU0 hV0, h.1, h.2⟩

/-- Witness for claim C1's theorem at the trivial oracle and `M = 1`. -/
theorem PolDec_R_orthogonal_T_bounded_witness :
    (∀ N, IsOrthogonal (svdTrivial N).U ∧ IsOrthogonal (svdTrivial N).V ∧
      ∀ i, 0 ≤ (svdTrivial N).sv i) ∧
    (IsOrthogonal (PolDec svdTrivial 1).R ∧
     (PolDec svdTrivial 1).T.transpose = (PolDec svdTrivial 1).T ∧
     ∀ (μ : ℚ) (v : Vec3), v ≠ 0 → (PolDec svdTrivial 1).T.mulVec v = μ • v →
       (0.3 : ℚ) ≤ μ ∧ μ ≤ 2.0) := by
  have hsvd : ∀ N, IsOrthogonal (svdTrivial N).U ∧ IsOrthogonal (svdTrivial N).V ∧
      ∀ i, 0 ≤ (svdTrivial N).sv i := by
    intro N
    refine ⟨⟨?_, ?_⟩, ⟨?_, ?_⟩, fun i => ?_⟩ <;> simp [svdTrivial]
  exact ⟨hsvd, PolDec_R_orthogonal_T_bounded svdTrivial 1 hsvd⟩

/-- Claim C3: when `det(U * Vᵀ) < 0` for the factors of the first SVD, the
correction branch flips the sign of the smallest singular value (first index
on ties), recomputes `F = U * S_flipped * Vᵀ`, redoes the SVD on `F`,
recombines `R = U' * V'ᵀ` from the new factors, and builds
`T = V' * S_clamped * V'ᵀ` from the clamped flipped singular values and the
eigenvector factor `V'` of the second SVD. -/
theorem PolDec_improper_branch (svd : Mat3 → SVDResult) (M : Mat3)
    (himp : (polR0 svd M).det < 0) :
    (PolDec svd M).R = (svd (polF svd M)).U * (svd (polF svd M)).V.transpose ∧
    (PolDec svd M).T = (svd (polF svd M)).V *
      clampDiag 0.3 2.0 (Matrix.diagonal (flipMin (svd M).sv)) *
      (svd (polF svd M)).V.transpose ∧
    polF svd M = (svd M).U * Matrix.diagonal (flipMin (svd M).sv) * (svd M).V.transpose ∧
    flipMin (svd M).sv (minIdx3 (svd M).sv) = -((svd M).sv (minIdx3 (svd M).sv)) ∧
    (∀ j, j ≠ minIdx3 (svd M).sv → flipMin (svd M).sv j = (svd M).sv j) ∧
    (∀ j, (svd M).sv (minIdx3 (svd M).sv) ≤ (svd M).sv j) ∧
    (∀ j, j < minIdx3 (svd M).sv → (svd M).sv (minIdx3 (svd M).sv) < (svd M).sv j) := by
  refine ⟨?_, ?_, rfl, Function.update_same _ _ _,
    fun j hj => Function.update_noteq hj _ _,
    fun j => minIdx3_min _ j, fun j hj => minIdx3_first _ j hj⟩
  · unfold PolDec
    rw [if_pos himp]
  · unfold PolDec
    rw [if_pos himp]

/-- Witness for claim C3's theorem: the oracle `svdFlip` at `M = 1` satisfies
`det(U * Vᵀ) = -1 < 0`. -/
theorem PolDec_improper_branch_witness :
    (polR0 svdFlip 1).det < 0 ∧
    ((PolDec svdFlip 1).R = (svdFlip (polF svdFlip 1)).U * (svdFlip (polF svdFlip 1)).V.transpose ∧
     (PolDec svdFlip 1).T = (svdFlip (polF svdFlip 1)).V *
       clampDiag 0.3 2.0 (Matrix.diagonal (flipMin (svdFlip 1).sv)) *
       (svdFlip (polF svdFlip 1)).V.transpose ∧
     polF svdFlip 1 = (svdFlip 1).U * Matrix.diagonal (flipMin (svdFlip 1).sv) *
       (svdFlip 1).V.transpose ∧
     flipMin (svdFlip 1).sv (minIdx3 (svdFlip 1).sv) =
       -((svdFlip 1).sv (minIdx3 (svdFlip 1).sv)) ∧
     (∀ j, j ≠ minIdx3 (svdFlip 1).sv → flipMin (svdFlip 1).sv j = (svdFlip 1).sv j) ∧
     (∀ j, (svdFlip 1).sv (minIdx3 (svdFlip 1).sv) ≤ (svdFlip 1).sv j) ∧
     (∀ j, j < minIdx3 (svdFlip 1).sv → (svdFlip 1).sv (minIdx3 (svdFlip 1).sv) < (svdFlip 1).sv j)) := by
  have himp : (polR0 svdFlip 1).det < 0 := by
    norm_num [polR0, svdFlip, Matrix.det_diagonal, Fin.prod_univ_three]
  exact ⟨himp, PolDec_improper_branch svdFlip 1 himp⟩

/-- Claim C9: `Deviator M = M - (trace(M)/3) * I`, the result is trace-free,
and adding the isotropic part back recovers `M` exactly. -/
theorem Deviator_traceless (M : Mat3) :
    Deviator M = M - (M.trace / 3) • (1 : Mat3) ∧
    (Deviator M).trace = 0 ∧
    Deviator M + (M.trace / 3) • (1 : Mat3) = M := by
  refine ⟨rfl, ?_, ?_⟩
  · unfold Deviator
    rw [Matrix.trace_sub, Matrix.trace_smul, Matrix.trace_one]
    simp only [Fintype.card_fin, smul_eq_mul]
    push_cast
    ring
  · unfold Deviator
    abel

lemma conj_smul_collapse (V : Mat3) (hV : IsOrthogonal V) (c : ℚ) (S : Mat3) :
    V * (c • (inv3 V * S * V)) * inv3 V = c • S := by
  rw [inv3_of_orthogonal V hV, Matrix.mul_smul, Matrix.smul_mul]
  congr 1
  rw [← mul_assoc, ← mul_assoc, hV.2, one_mul, mul_assoc, hV.2, mul_one]

/-- Claim C5: when the eigen oracle returns a valid decomposition and
`0 < limit`, `LimitEigenvalues` returns `S` unchanged if neither extreme
eigenvalue magnitude exceeds `limit`; otherwise it returns `S` uniformly
rescaled by the single factor `limit / max(|λ_max|, |λ_min|)`, which brings
the larger-magnitude extreme eigenvalue exactly to magnitude `limit` and
scales every eigenvalue by the same factor (so all eigenvalue ratios are
preserved; no independent per-eigenvalue clipping). -/
theorem LimitEigenvalues_rescale (es : Mat3 → EigResult) (S : Mat3) (limit : ℚ)
    (hval : EigValid S (es S)) (hlim : 0 < limit) :
    (max |maxCoeff3 (es S).ev| |minCoeff3 (es S).ev| ≤ limit →
      LimitEigenvalues es S limit = S) ∧
    (limit < max |maxCoeff3 (es S).ev| |minCoeff3 (es S).ev| →
      LimitEigenvalues es S limit = scaleFactor es S limit • S ∧
      max |scaleFactor es S limit * maxCoeff3 (es S).ev|
          |scaleFactor es S limit * minCoeff3 (es S).ev| = limit ∧
      ∀ (μ : ℚ) (v : Vec3), S.mulVec v = μ • v →
        (LimitEigenvalues es S limit).mulVec v = (scaleFactor es S limit * μ) • v) := by
  constructor
  · intro h
    have h' : ¬(|maxCoeff3 (es S).ev| > limit ∨ |minCoeff3 (es S).ev| > limit) := by
      push_neg
      exact ⟨le_trans (le_max_left _ _) h, le_trans (le_max_right _ _) h⟩
    unfold LimitEigenvalues
    rw [if_neg h']
  · intro h
    have hcond : |maxCoeff3 (es S).ev| > limit ∨ |minCoeff3 (es S).ev| > limit := by
      by_contra hc
      push_neg at hc
      have hle : max |maxCoeff3 (es S).ev| |minCoeff3 (es S).ev| ≤ limit :=
        max_le hc.1 hc.2
      linarith
    have hm : 0 < max |maxCoeff3 (es S).ev| |minCoeff3 (es S).ev| := lt_trans hlim h
    have hEq : LimitEigenvalues es S limit = scaleFactor es S limit • S := by
      unfold LimitEigenvalues
      rw [if_pos hcond]
      by_cases hgt : |maxCoeff3 (es S).ev| > |minCoeff3 (es S).ev|
      · rw [if_pos hgt, conj_smul_collapse (es S).V hval.1, inv_div, scaleFactor,
          max_eq_left (le_of_lt hgt)]
      · rw [if_neg hgt, conj_smul_collapse (es S).V hval.1, inv_div, scaleFactor,
          max_eq_right (not_lt.mp hgt)]
    refine ⟨hEq, ?_, fun μ v hμ => ?_⟩
    · have hc : 0 < scaleFactor es S limit := div_pos hlim hm
      rw [abs_mul, abs_mul, abs_of_pos hc, ← mul_max_of_nonneg _ _ (le_of_lt hc)]
      unfold scaleFactor
      exact div_mul_cancel₀ limit (ne_of_gt hm)
    · rw [hEq, Matrix.smul_mulVec_assoc, hμ, smul_smul]

/-- Witness for claim C5's theorem at the diagonal-reading oracle, `S = 1`
and `limit = 5`. -/
theorem LimitEigenvalues_rescale_witness :
    (EigValid 1 (esDiag 1) ∧ (0 : ℚ) < 5) ∧
    ((max |maxCoeff3 (esDiag 1).ev| |minCoeff3 (esDiag 1).ev| ≤ 5 →
      LimitEigenvalues esDiag 1 5 = 1) ∧
    (5 < max |maxCoeff3 (esDiag 1).ev| |minCoeff3 (esDiag 1).ev| →
      LimitEigenvalues esDiag 1 5 = scaleFactor esDiag 1 5 • 1 ∧
      max |scaleFactor esDiag 1 5 * maxCoeff3 (esDiag 1).ev|
          |scaleFactor esDiag 1 5 * minCoeff3 (esDiag 1).ev| = 5 ∧
      ∀ (μ : ℚ) (v : Vec3), (1 : Mat3).mulVec v = μ • v →
        (LimitEigenvalues esDiag 1 5).mulVec v = (scaleFactor esDiag 1 5 * μ) • v)) := by
  have hval : EigValid 1 (esDiag 1) := by
    refine ⟨⟨?_, ?_⟩, ?_⟩ <;> simp [esDiag]
  exact ⟨⟨hval, by norm_num⟩, LimitEigenvalues_rescale esDiag 1 5 hval (by norm_num)⟩

/-- Claim C6: `LimitMinMaxEigenvalues` returns `true` iff the maximum
eigenvalue exceeds `hi` or the minimum eigenvalue is below `lo`; when it
returns `true`, `S` is rebuilt from the independently clamped eigenvalues and
the original eigenvectors, so every eigenvalue of the result lies in
`[lo, hi]`; when it returns `false`, `S` is unchanged. -/
theorem LimitMinMaxEigenvalues_clamp (es : Mat3 → EigResult) (S : Mat3) (lo hi : ℚ)
    (hval : EigValid S (es S)) (hlohi : lo ≤ hi) :
    ((LimitMinMaxEigenvalues es S lo hi).ret = true ↔
      (maxCoeff3 (es S).ev > hi ∨ minCoeff3 (es S).ev < lo)) ∧
    ((LimitMinMaxEigenvalues es S lo hi).ret = true →
      (LimitMinMaxEigenvalues es S lo hi).S =
        (es S).V * clampDiag lo hi (Matrix.diagonal (es S).ev) * inv3 (es S).V ∧
      ∀ (μ : ℚ) (v : Vec3), v ≠ 0 →
        (LimitMinMaxEigenvalues es S lo hi).S.mulVec v = μ • v → lo ≤ μ ∧ μ ≤ hi) ∧
    ((LimitMinMaxEigenvalues es S lo hi).ret = false →
      (LimitMinMaxEigenvalues es S lo hi).S = S) := by
  by_cases hcond : maxCoeff3 (es S).ev > hi ∨ minCoeff3 (es S).ev < lo
  · have hres : LimitMinMaxEigenvalues es S lo hi =
        ⟨(es S).V * clampDiag lo hi (Matrix.diagonal (es S).ev) * inv3 (es S).V, true⟩ := by
      unfold LimitMinMaxEigenvalues
      rw [if_pos hcond]
    rw [hres]
    refine ⟨by simp [hcond], fun _ => ⟨rfl, fun μ v hv h => ?_⟩, fun hfalse => by simp at hfalse⟩
    rw [inv3_of_orthogonal _ hval.1, clampDiag_diagonal] at h
    exact eigenvalue_conj_diag_bounds (es S).V _ lo hi hval.1
      (fun i => clampQ_mem lo hi ((es S).ev i) hlohi) μ v hv h
  · have hres : LimitMinMaxEigenvalues es S lo hi = ⟨S, false⟩ := by
      unfold LimitMinMaxEigenvalues
      rw [if_neg hcond]
    rw [hres]
    exact ⟨by simp [hcond], fun htrue => by simp at htrue, fun _ => rfl⟩

/-- Witness for claim C6's theorem at the diagonal-reading oracle,
`S = diag(5, 1, -5)`, `lo = -2`, `hi = 2`. -/
theorem LimitMinMaxEigenvalues_clamp_witness :
    (EigValid (Matrix.diagonal ![5, 1, -5]) (esDiag (Matrix.diagonal ![5, 1, -5])) ∧
      (-2 : ℚ) ≤ 2) ∧
    (((LimitMinMaxEigenvalues esDiag (Matrix.diagonal ![5, 1, -5]) (-2) 2).ret = true ↔
      (maxCoeff3 (esDiag (Matrix.diagonal ![5, 1, -5])).ev > 2 ∨
       minCoeff3 (esDiag (Matrix.diagonal ![5, 1, -5])).ev < -2)) ∧
    ((LimitMinMaxEigenvalues esDiag (Matrix.diagonal ![5, 1, -5]) (-2) 2).ret = true →
      (LimitMinMaxEigenvalues esDiag (Matrix.diagonal ![5, 1, -5]) (-2) 2).S =
        (esDiag (Matrix.diagonal ![5, 1, -5])).V *
          clampDiag (-2) 2 (Matrix.diagonal (esDiag (Matrix.diagonal ![5, 1, -5])).ev) *
          inv3 (esDiag (Matrix.diagonal ![5, 1, -5])).V ∧
      ∀ (μ : ℚ) (v : Vec3), v ≠ 0 →
        (LimitMinMaxEigenvalues esDiag (Matrix.diagonal ![5, 1, -5]) (-2) 2).S.mulVec v =
          μ • v → (-2 : ℚ) ≤ μ ∧ μ ≤ 2) ∧
    ((LimitMinMaxEigenvalues esDiag (Matrix.diagonal ![5, 1, -5]) (-2) 2).ret = false →
      (LimitMinMaxEigenvalues esDiag (Matrix.diagonal ![5, 1, -5]) (-2) 2).S =
        Matrix.diagonal ![5, 1, -5])) := by
  have hval : EigValid (Matrix.diagonal ![5, 1, -5]) (esDiag (Matrix.diagonal ![5, 1, -5])) := by
    refine ⟨⟨?_, ?_⟩, ?_⟩ <;> simp [esDiag]
  exact ⟨⟨hval, by norm_num⟩,
    LimitMinMaxEigenvalues_clamp esDiag (Matrix.diagonal ![5, 1, -5]) (-2) 2 hval (by norm_num)⟩

/-- Claim C10: `LimitMinMaxEigenvalues` is idempotent — when the eigen oracle
returns valid decompositions (orthonormal eigenbasis) at both points and
`lo ≤ hi`, an immediately repeated call on the result of a first call returns
`false` and leaves the matrix unchanged. -/
theorem LimitMinMaxEigenvalues_idempotent (es : Mat3 → EigResult) (S : Mat3) (lo hi : ℚ)
    (h1 : EigValid S (es S))
    (h2 : EigValid (LimitMinMaxEigenvalues es S lo hi).S
      (es (LimitMinMaxEigenvalues es S lo hi).S))
    (hlohi : lo ≤ hi) :
    (LimitMinMaxEigenvalues es (LimitMinMaxEigenvalues es S lo hi).S lo hi).ret = false ∧
    (LimitMinMaxEigenvalues es (LimitMinMaxEigenvalues es S lo hi).S lo hi).S =
      (LimitMinMaxEigenvalues es S lo hi).S := by
  by_cases hcond : maxCoeff3 (es S).ev > hi ∨ minCoeff3 (es S).ev < lo
  · have hS1eq : (LimitMinMaxEigenvalues es S lo hi).S =
        (es S).V * Matrix.diagonal (fun i => clampQ lo hi ((es S).ev i)) *
          (es S).V.transpose := by
      rw [LimitMinMax_eq_true es S lo hi hcond]
      rw [inv3_of_orthogonal _ h1.1, clampDiag_diagonal]
    have hbnd : ∀ i, lo ≤ (es (LimitMinMaxEigenvalues es S lo hi).S).ev i ∧
        (es (LimitMinMaxEigenvalues es S lo hi).S).ev i ≤ hi := by
      intro i
      have hcol := conj_diag_column_eigen (es (LimitMinMaxEigenvalues es S lo hi).S).V
        (es (LimitMinMaxEigenvalues es S lo hi).S).ev
        (LimitMinMaxEigenvalues es S lo hi).S h2.1.1 h2.2 i
      have hne := orthogonal_column_ne_zero (es (LimitMinMaxEigenvalues es S lo hi).S).V h2.1 i
      exact eigenvalue_bounds_of_eq (LimitMinMaxEigenvalues es S lo hi).S (es S).V _ lo hi h1.1
        (fun j => clampQ_mem lo hi ((es S).ev j) hlohi) hS1eq _ _ hne hcol
    have hncond : ¬(maxCoeff3 (es (LimitMinMaxEigenvalues es S lo hi).S).ev > hi ∨
        minCoeff3 (es (LimitMinMaxEigenvalues es S lo hi).S).ev < lo) := by
      push_neg
      constructor
      · exact max_le (max_le (hbnd 0).2 (hbnd 1).2) (hbnd 2).2
      · exact le_min (le_min (hbnd 0).1 (hbnd 1).1) (hbnd 2).1
    rw [LimitMinMax_eq_false es _ lo hi hncond]
    exact ⟨rfl, rfl⟩
  · have hS1eq : (LimitMinMaxEigenvalues es S lo hi).S = S := by
      rw [LimitMinMax_eq_false es S lo hi hcond]
    have hncond : ¬(maxCoeff3 (es (LimitMinMaxEigenvalues es S lo hi).S).ev > hi ∨
        minCoeff3 (es (LimitMinMaxEigenvalues es S lo hi).S).ev < lo) := by
      rw [hS1eq]
      exact hcond
    rw [LimitMinMax_eq_false es _ lo hi hncond]
    exact ⟨rfl, rfl⟩

/-- Witness for claim C10's theorem at the diagonal-reading oracle, `S = 1`,
`lo = -2`, `hi = 2`. -/
theorem LimitMinMaxEigenvalues_idempotent_witness :
    (EigValid 1 (esDiag 1) ∧
     EigValid (LimitMinMaxEigenvalues esDiag 1 (-2) 2).S
       (esDiag (LimitMinMaxEigenvalues esDiag 1 (-2) 2).S) ∧
     (-2 : ℚ) ≤ 2) ∧
    ((LimitMinMaxEigenvalues esDiag (LimitMinMaxEigenvalues esDiag 1 (-2) 2).S (-2) 2).ret =
      false ∧
     (LimitMinMaxEigenvalues esDiag (LimitMinMaxEigenvalues esDiag 1 (-2) 2).S (-2) 2).S =
      (LimitMinMaxEigenvalues esDiag 1 (-2) 2).S) := by
  have hval : EigValid 1 (esDiag 1) := by
    refine ⟨⟨?_, ?_⟩, ?_⟩ <;> simp [esDiag]
  have hS1 : (LimitMinMaxEigenvalues esDiag 1 (-2) 2).S = 1 := by
    unfold LimitMinMaxEigenvalues
    rw [if_neg]
    push_neg
    constructor <;> norm_num [esDiag, maxCoeff3, minCoeff3]
  have hval2 : EigValid (LimitMinMaxEigenvalues esDiag 1 (-2) 2).S
      (esDiag (LimitMinMaxEigenvalues esDiag 1 (-2) 2).S) := by
    rw [hS1]
    exact hval
  exact ⟨⟨hval, hval2, by norm_num⟩,
    LimitMinMaxEigenvalues_idempotent esDiag 1 (-2) 2 hval hval2 (by norm_num)⟩

end SMD_Math
